import Mathlib

/-!
Verification development for the geometric-calibration and spectral-extraction
core of the crispy IFS simulator/reducer.

The repository ships only its test suite under `src/`; the implementation
modules (`crispy.tools.locate_psflets`, `crispy.tools.reduction`,
`crispy.unitTests`) are not present.  Every definition below is therefore a
shallow model built from the specification's words (see the doc comment of
each definition), with exact rational arithmetic standing in for the
floating-point arithmetic of the original code, and an explicit value type
with `nan` / `inf` markers where the specification talks about IEEE special
values.
-/

namespace Crispy

/-! ## Executable dense polynomials over ℚ (ascending coefficients) -/

/-- Horner-style evaluation of a dense ascending coefficient list. -/
def polyEval (p : List ℚ) (x : ℚ) : ℚ :=
  p.foldr (fun a acc => a + x * acc) 0

/-- Coefficient-wise sum of two dense polynomials. -/
def polyAdd : List ℚ → List ℚ → List ℚ
  | [], q => q
  | p, [] => p
  | a :: p, b :: q => (a + b) :: polyAdd p q

/-- Scalar multiple of a dense polynomial. -/
def polyScale (c : ℚ) (p : List ℚ) : List ℚ :=
  p.map (fun a => c * a)

/-- Multiplication of a dense polynomial by the linear factor `a + b·x`. -/
def mulLinear (a b : ℚ) (p : List ℚ) : List ℚ :=
  polyAdd (polyScale a p) (0 :: polyScale b p)

@[simp] theorem polyEval_nil (x : ℚ) : polyEval [] x = 0 := rfl

@[simp] theorem polyEval_cons (a : ℚ) (p : List ℚ) (x : ℚ) :
    polyEval (a :: p) x = a + x * polyEval p x := rfl

theorem polyEval_polyAdd (p q : List ℚ) (x : ℚ) :
    polyEval (polyAdd p q) x = polyEval p x + polyEval q x := by
  induction p generalizing q with
  | nil => simp [polyAdd]
  | cons a p ih =>
    cases q with
    | nil => simp [polyAdd]
    | cons b q => simp [polyAdd, ih]; ring

theorem polyEval_polyScale (c : ℚ) (p : List ℚ) (x : ℚ) :
    polyEval (polyScale c p) x = c * polyEval p x := by
  induction p with
  | nil => simp [polyScale]
  | cons a p ih => simp [polyScale, ih] at *; ring

theorem polyEval_mulLinear (a b : ℚ) (p : List ℚ) (x : ℚ) :
    polyEval (mulLinear a b p) x = (a + b * x) * polyEval p x := by
  simp [mulLinear, polyEval_polyAdd, polyEval_polyScale]
  ring

theorem polyAdd_length (p q : List ℚ) :
    (polyAdd p q).length = max p.length q.length := by
  induction p generalizing q with
  | nil => simp [polyAdd]
  | cons a p ih =>
    cases q with
    | nil => simp [polyAdd]
    | cons b q => simp [polyAdd, ih]; omega

@[simp] theorem polyScale_length (c : ℚ) (p : List ℚ) :
    (polyScale c p).length = p.length := by
  simp [polyScale]

theorem mulLinear_length (a b : ℚ) (p : List ℚ) :
    (mulLinear a b p).length = p.length + 1 := by
  simp [mulLinear, polyAdd_length]

/-! ## Lagrange interpolation through (wavelength, value) points -/

/-- Product of the scaled linear factors `(x - k)/(xj - k)` over the node list
`ks`, as a dense polynomial in the indeterminate.  This is the Lagrange basis
polynomial attached to the node `xj` when `ks` lists the remaining nodes. -/
def prodFac (xj : ℚ) : List ℚ → List ℚ
  | [] => [1]
  | k :: ks => mulLinear (-k / (xj - k)) (1 / (xj - k)) (prodFac xj ks)

theorem polyEval_prodFac (xj x : ℚ) (ks : List ℚ) :
    polyEval (prodFac xj ks) x = (ks.map (fun k => (x - k) / (xj - k))).prod := by
  induction ks with
  | nil => simp [prodFac]
  | cons k ks ih =>
    rw [prodFac, polyEval_mulLinear, ih, List.map_cons, List.prod_cons]
    ring

theorem prodFac_length (xj : ℚ) (ks : List ℚ) :
    (prodFac xj ks).length = ks.length + 1 := by
  induction ks with
  | nil => rfl
  | cons k ks ih => simp [prodFac, mulLinear_length, ih]

theorem polyEval_prodFac_of_mem (xj x : ℚ) (ks : List ℚ) (hx : x ∈ ks) :
    polyEval (prodFac xj ks) x = 0 := by
  rw [polyEval_prodFac]
  refine List.prod_eq_zero (List.mem_map.mpr ⟨x, hx, ?_⟩)
  simp

theorem polyEval_prodFac_self (x : ℚ) (ks : List ℚ) (h : ∀ k ∈ ks, k ≠ x) :
    polyEval (prodFac x ks) x = 1 := by
  rw [polyEval_prodFac]
  refine List.prod_eq_one ?_
  intro a ha
  rcases List.mem_map.mp ha with ⟨k, hk, rfl⟩
  exact div_self (sub_ne_zero.mpr (Ne.symm (h k hk)))

/-- Interpolating polynomial through a list of `(node, value)` points, built
as the sum over points of `value · (Lagrange basis of the node)`.  `before`
accumulates the points already handled, so each point's basis polynomial
ranges over every other point's node. -/
def lagrangeGo (before : List (ℚ × ℚ)) : List (ℚ × ℚ) → List ℚ
  | [] => []
  | (x, y) :: rest =>
      polyAdd (polyScale y (prodFac x ((before ++ rest).map Prod.fst)))
        (lagrangeGo (before ++ [(x, y)]) rest)

/-- Dense interpolating polynomial through all points of `pts`. -/
def lagrange (pts : List (ℚ × ℚ)) : List ℚ :=
  lagrangeGo [] pts

theorem lagrangeGo_length (rest : List (ℚ × ℚ)) :
    ∀ (before : List (ℚ × ℚ)) (x y : ℚ),
      (lagrangeGo before ((x, y) :: rest)).length = before.length + rest.length + 1 := by
  induction rest with
  | nil =>
    intro before x y
    simp [lagrangeGo, polyAdd_length, prodFac_length]
  | cons q rest ih =>
    intro before x y
    obtain ⟨qx, qy⟩ := q
    rw [show lagrangeGo before ((x, y) :: (qx, qy) :: rest)
        = polyAdd (polyScale y (prodFac x ((before ++ ((qx, qy) :: rest)).map Prod.fst)))
            (lagrangeGo (before ++ [(x, y)]) ((qx, qy) :: rest)) from rfl]
    rw [polyAdd_length, ih (before ++ [(x, y)]) qx qy]
    simp only [polyScale_length, prodFac_length, List.length_map,
      List.length_append, List.length_cons, List.length_nil]
    omega

theorem lagrange_length (pts : List (ℚ × ℚ)) (h : pts ≠ []) :
    (lagrange pts).length = pts.length := by
  match pts, h with
  | (x, y) :: rest, _ =>
    simpa [lagrange] using lagrangeGo_length rest [] x y

theorem lagrangeGo_eval_of_before (after : List (ℚ × ℚ)) :
    ∀ (before : List (ℚ × ℚ)) (x : ℚ), (∃ p ∈ before, p.1 = x) →
      polyEval (lagrangeGo before after) x = 0 := by
  induction after with
  | nil => intro before x _; simp [lagrangeGo]
  | cons q rest ih =>
    intro before x hx
    obtain ⟨qx, qy⟩ := q
    obtain ⟨p, hp, hpx⟩ := hx
    have h1 : polyEval (prodFac qx ((before ++ rest).map Prod.fst)) x = 0 :=
      polyEval_prodFac_of_mem _ _ _
        (List.mem_map.mpr ⟨p, List.mem_append_left _ hp, hpx⟩)
    have h2 : polyEval (lagrangeGo (before ++ [(qx, qy)]) rest) x = 0 :=
      ih _ x ⟨p, List.mem_append_left _ hp, hpx⟩
    simp only [lagrangeGo]
    rw [polyEval_polyAdd, polyEval_polyScale, h1, h2]
    ring

theorem lagrangeGo_eval_node (after : List (ℚ × ℚ)) :
    ∀ (before : List (ℚ × ℚ)) (x y : ℚ),
      (x, y) ∈ after →
      (∀ p ∈ before, p.1 ≠ x) →
      List.Pairwise (fun p q => p.1 ≠ q.1) (before ++ after) →
      polyEval (lagrangeGo before after) x = y := by
  induction after with
  | nil => intro _ _ _ h; cases h
  | cons q rest ih =>
    intro before x y hmem hbefore hpw
    obtain ⟨qx, qy⟩ := q
    have hafter : List.Pairwise (fun p q => p.1 ≠ q.1) ((qx, qy) :: rest) :=
      (List.pairwise_append.mp hpw).2.1
    simp only [lagrangeGo]
    rw [polyEval_polyAdd, polyEval_polyScale]
    by_cases hqx : qx = x
    · have hqy : qy = y := by
        rcases List.mem_cons.mp hmem with heq | hrest
        · cases heq; rfl
        · exfalso
          exact (List.pairwise_cons.mp hafter).1 (x, y) hrest hqx
      have h1 : polyEval (prodFac qx ((before ++ rest).map Prod.fst)) x = 1 := by
        subst hqx
        refine polyEval_prodFac_self _ _ ?_
        intro k hk
        rcases List.mem_map.mp hk with ⟨p, hp, rfl⟩
        rcases List.mem_append.mp hp with h | h
        · exact hbefore p h
        · exact Ne.symm ((List.pairwise_cons.mp hafter).1 p h)
      have h2 : polyEval (lagrangeGo (before ++ [(qx, qy)]) rest) x = 0 :=
        lagrangeGo_eval_of_before rest _ x
          ⟨(qx, qy), List.mem_append_right _ (List.mem_singleton.mpr rfl), hqx⟩
      rw [h1, h2, hqy]
      ring
    · have hrest : (x, y) ∈ rest := by
        rcases List.mem_cons.mp hmem with heq | h
        · exact absurd (congrArg Prod.fst heq).symm hqx
        · exact h
      have h1 : polyEval (prodFac qx ((before ++ rest).map Prod.fst)) x = 0 :=
        polyEval_prodFac_of_mem _ _ _
          (List.mem_map.mpr ⟨(x, y), List.mem_append_right _ hrest, rfl⟩)
      have h2 : polyEval (lagrangeGo (before ++ [(qx, qy)]) rest) x = y := by
        refine ih (before ++ [(qx, qy)]) x y hrest ?_ ?_
        · intro p hp
          rcases List.mem_append.mp hp with h | h
          · exact hbefore p h
          · rcases List.mem_singleton.mp h with rfl
            exact hqx
        · rw [List.append_assoc, List.singleton_append]
          exact hpw
      rw [h1, h2]
      ring

theorem lagrange_eval_node (pts : List (ℚ × ℚ)) (x y : ℚ)
    (hpw : List.Pairwise (fun p q => p.1 ≠ q.1) pts) (hmem : (x, y) ∈ pts) :
    polyEval (lagrange pts) x = y := by
  have h := lagrangeGo_eval_node pts [] x y hmem (by simp) (by simpa using hpw)
  simpa [lagrange] using h

/-! ## PSFLet geometric model (`crispy.tools.locate_psflets.PSFLets`) -/

/-- Rows of a matrix with column `j` removed. -/
def minorCols (rows : List (List ℚ)) (j : ℕ) : List (List ℚ) :=
  rows.map (fun r => r.eraseIdx j)

/-- Determinant of a square rational matrix by Laplace expansion along the
first row. -/
def det : List (List ℚ) → ℚ
  | [] => 1
  | r :: rs =>
      ((List.range r.length).map
        (fun j => (-1 : ℚ) ^ j * r.getD j 0 * det (minorCols rs j))).sum
termination_by m => m.length
decreasing_by simp [minorCols]

/-- Square matrix with column `i` replaced by the vector `b`, for Cramer's
rule. -/
def replaceCol (m : List (List ℚ)) (i : ℕ) (b : List ℚ) : List (List ℚ) :=
  (m.zip b).map (fun p => p.1.set i p.2)

/-- Modelled from the spec: solution of the linear system `m · x = b` by
Cramer's rule, used for the normal equations of the least-squares branch of
`PSFLets.geninterparray`, whose implementation is absent from `src/`. -/
def cramerSolve (m : List (List ℚ)) (b : List ℚ) : List ℚ :=
  (List.range m.length).map (fun i => det (replaceCol m i b) / det m)

/-- Modelled from the spec: normal matrix `Aᵀ·A` of the degree-`order`
Vandermonde design matrix over the calibration wavelengths. -/
def normalMatrix (order : ℕ) (lamlist : List ℚ) : List (List ℚ) :=
  (List.range (order + 1)).map (fun i =>
    (List.range (order + 1)).map (fun j =>
      (lamlist.map (fun lam => lam ^ (i + j))).sum))

/-- Modelled from the spec: right-hand side `Aᵀ·y` of the normal equations
for one geometric-coefficient column. -/
def normalRhs (order : ℕ) (lamlist ys : List ℚ) : List ℚ :=
  (List.range (order + 1)).map (fun i =>
    ((lamlist.zip ys).map (fun p => p.1 ^ i * p.2)).sum)

/-- Modelled from the spec: the per-column polynomial fit of §4.2 — a degree
`order` polynomial in wavelength through all calibration points, exact when
the number of points equals `order + 1` (the unique interpolant), and the
least-squares normal-equations solution otherwise.  The implementation
(`crispy.tools.locate_psflets`) is absent from `src/`. -/
def fitColumn (order : ℕ) (lamlist ys : List ℚ) : List ℚ :=
  if lamlist.length = order + 1 then lagrange (lamlist.zip ys)
  else cramerSolve (normalMatrix order lamlist) (normalRhs order lamlist ys)

/-- Modelled from the spec: `PSFLets.geninterparray` / `buildInterpolation`
(§4.2), absent from `src/`.  Validates the calibration data (at least
`order + 1` strictly increasing wavelengths, one coefficient row per
wavelength) and returns the InterpolationArray as a list of columns, one per
geometric coefficient, each column the dense degree-`order` polynomial fit in
wavelength; `none` models `CalibrationError`. -/
def geninterparray (order : ℕ) (lamlist : List ℚ) (allcoef : List (List ℚ)) :
    Option (List (List ℚ)) :=
  if order + 1 ≤ lamlist.length ∧ List.Chain' (· < ·) lamlist ∧
      lamlist.length = allcoef.length then
    some ((List.range (allcoef.headD []).length).map (fun c =>
      fitColumn order lamlist (allcoef.map (fun row => row.getD c 0))))
  else none

/-- Modelled from the spec: `PSFLets.evaluate` (§4.2) — evaluate each
column's polynomial of the InterpolationArray at the requested wavelength,
yielding the geometric-coefficient vector there. -/
def evaluate (arr : List (List ℚ)) (lam : ℚ) : List ℚ :=
  arr.map (fun col => polyEval col lam)

@[simp] theorem cramerSolve_length (m : List (List ℚ)) (b : List ℚ) :
    (cramerSolve m b).length = m.length := by
  simp [cramerSolve]

@[simp] theorem normalMatrix_length (order : ℕ) (lamlist : List ℚ) :
    (normalMatrix order lamlist).length = order + 1 := by
  simp [normalMatrix]

theorem fitColumn_length (order : ℕ) (lamlist ys : List ℚ)
    (hlen : order + 1 ≤ lamlist.length) (hys : ys.length = lamlist.length) :
    (fitColumn order lamlist ys).length = order + 1 := by
  unfold fitColumn
  split
  case isTrue h =>
    rw [lagrange_length]
    · simp [List.length_zip, h, hys]
    · have : (lamlist.zip ys).length = order + 1 := by
        simp [List.length_zip, h, hys]
      intro hnil
      rw [hnil] at this
      simp at this
  case isFalse h =>
    simp

theorem geninterparray_shape (order : ℕ) (lamlist : List ℚ)
    (allcoef : List (List ℚ)) (arr : List (List ℚ)) (nc : ℕ)
    (hrows : ∀ row ∈ allcoef, row.length = nc) (hne : allcoef ≠ [])
    (hsome : geninterparray order lamlist allcoef = some arr) :
    arr.length = nc ∧ ∀ col ∈ arr, col.length = order + 1 := by
  unfold geninterparray at hsome
  split at hsome
  case isTrue hcond =>
    obtain ⟨hlen0, _, heq⟩ := hcond
    injection hsome with h
    subst h
    refine ⟨?_, ?_⟩
    · simp only [List.length_map, List.length_range]
      match allcoef, hne with
      | row :: rest, _ => exact hrows row (List.mem_cons_self row rest)
    · intro col hcol
      rcases List.mem_map.mp hcol with ⟨c, _, rfl⟩
      exact fitColumn_length order lamlist _ hlen0 (by simp [heq.symm])
  case isFalse h =>
    cases hsome

theorem geninterparray_eval_node (order : ℕ) (lamlist : List ℚ)
    (allcoef : List (List ℚ)) (nc : ℕ) (arr : List (List ℚ))
    (hchain : List.Chain' (· < ·) lamlist)
    (hlam : lamlist.length = order + 1)
    (hacl : allcoef.length = lamlist.length)
    (hrows : ∀ row ∈ allcoef, row.length = nc)
    (hsome : geninterparray order lamlist allcoef = some arr)
    (i : ℕ) (hi : i < lamlist.length) :
    evaluate arr (lamlist[i]) = allcoef[i] := by
  have hguard : order + 1 ≤ lamlist.length ∧ List.Chain' (· < ·) lamlist ∧
      lamlist.length = allcoef.length := ⟨le_of_eq hlam.symm, hchain, hacl.symm⟩
  unfold geninterparray at hsome
  rw [if_pos hguard] at hsome
  injection hsome with h
  subst h
  have hne : allcoef ≠ [] := by
    intro h
    rw [h] at hacl
    simp at hacl
    omega
  have hhead : (allcoef.headD []).length = nc := by
    match allcoef, hne with
    | row :: rest, _ => exact hrows row (List.mem_cons_self row rest)
  have hilen : allcoef[i].length = nc := hrows _ (List.getElem_mem _)
  refine List.ext_getElem ?_ ?_
  · simp only [evaluate, List.length_map, List.length_range, hhead, hilen]
  · intro c hc1 hc2
    have hcnc : c < nc := by
      simp only [evaluate, List.length_map, List.length_range, hhead] at hc1
      exact hc1
    simp only [evaluate, List.getElem_map, List.getElem_range]
    rw [fitColumn, if_pos hlam]
    set ys := allcoef.map (fun row => row.getD c 0) with hys
    have hysl : ys.length = lamlist.length := by simp [hys, hacl]
    have hpw : List.Pairwise (fun p q : ℚ × ℚ => p.1 ≠ q.1) (lamlist.zip ys) := by
      have h1 : List.Pairwise (· < ·) lamlist := List.chain'_iff_pairwise.mp hchain
      have h2 : List.Pairwise (· ≠ ·) lamlist := h1.imp ne_of_lt
      have hmapfst : (lamlist.zip ys).map Prod.fst = lamlist :=
        List.map_fst_zip lamlist ys (le_of_eq hysl.symm)
      rw [← hmapfst] at h2
      exact (List.pairwise_map).mp h2
    have hiy : i < ys.length := by omega
    have hmem : (lamlist[i], ys[i]) ∈ lamlist.zip ys := by
      have hzl : i < (lamlist.zip ys).length := by
        simp [List.length_zip, hysl]
        omega
      have h : (lamlist.zip ys)[i] = (lamlist[i], ys[i]) := List.getElem_zip (h := hzl)
      rw [← h]
      exact List.getElem_mem _
    rw [lagrange_eval_node (lamlist.zip ys) (lamlist[i]) (ys[i]) hpw hmem]
    simp only [hys, List.getElem_map]
    exact List.getD_eq_getElem allcoef[i] 0 (by omega)

/-! ## Wavelength grid builder (`crispy.tools.reduction.calculateWaveList`) -/

/-- Configured instrument bandpass limits and resolving power (§6). -/
structure GridParams where
  R : ℚ
  lamBlue : ℚ
  lamRed : ℚ
deriving DecidableEq, Repr

/-- Modelled from the spec: un-rescaled constant-resolving-power edge `i`,
`lamBlue · (1 + 1/R)^i` (§4.1); `calculateWaveList` itself is absent from
`src/`. -/
def preEdge (par : GridParams) (i : ℕ) : ℚ :=
  par.lamBlue * (1 + 1 / par.R) ^ i

/-- Modelled from the spec: edge `i` of the grid after the final uniform
rescale pinning the first and last edges to the configured bandpass limits
(§4.1). -/
def edgeAt (par : GridParams) (N i : ℕ) : ℚ :=
  par.lamBlue + (preEdge par i - par.lamBlue) *
    ((par.lamRed - par.lamBlue) / (preEdge par N - par.lamBlue))

/-- Edges of the `N`-channel wavelength grid. -/
def waveEndpoints (par : GridParams) (N : ℕ) : List ℚ :=
  (List.range (N + 1)).map (edgeAt par N)

/-- Midpoints of the `N` wavelength channels. -/
def waveMidpoints (par : GridParams) (N : ℕ) : List ℚ :=
  (List.range N).map (fun i => (edgeAt par N i + edgeAt par N (i + 1)) / 2)

/-- Modelled from the spec: `calculateWaveList` (§4.1), absent from `src/`.
Produces `N` ascending midpoints and `N + 1` ascending edges spanning the
configured bandpass at constant resolving power, rescaled so the first and
last edges exactly match the bandpass limits; `none` models
`ConfigurationError` (non-positive `R` or `N`, or non-monotonic edges). -/
def calculateWaveList (par : GridParams) (N : ℕ) : Option (List ℚ × List ℚ) :=
  if par.R ≤ 0 ∨ N = 0 then none
  else if List.Chain' (· < ·) (waveEndpoints par N) then
    some (waveMidpoints par N, waveEndpoints par N)
  else none

theorem preEdge_succ (par : GridParams) (i : ℕ) :
    preEdge par (i + 1) = preEdge par i * (1 + 1 / par.R) := by
  unfold preEdge
  rw [pow_succ]
  ring

theorem preEdge_pos (par : GridParams) (hB : 0 < par.lamBlue) (hR : 0 < par.R)
    (i : ℕ) : 0 < preEdge par i := by
  have h1 : (0 : ℚ) < 1 + 1 / par.R := by
    have := one_div_pos.mpr hR
    linarith
  exact mul_pos hB (pow_pos h1 i)

theorem preEdge_lt_succ (par : GridParams) (hB : 0 < par.lamBlue)
    (hR : 0 < par.R) (i : ℕ) : preEdge par i < preEdge par (i + 1) := by
  have h1 : (1 : ℚ) < 1 + 1 / par.R := by
    have := one_div_pos.mpr hR
    linarith
  rw [preEdge_succ]
  exact lt_mul_of_one_lt_right (preEdge_pos par hB hR i) h1

theorem preEdge_zero (par : GridParams) : preEdge par 0 = par.lamBlue := by
  simp [preEdge]

theorem lamBlue_lt_preEdge (par : GridParams) (hB : 0 < par.lamBlue)
    (hR : 0 < par.R) (N : ℕ) (hN : N ≠ 0) : par.lamBlue < preEdge par N := by
  have h1 : (1 : ℚ) < 1 + 1 / par.R := by
    have := one_div_pos.mpr hR
    linarith
  have h2 : (1 : ℚ) < (1 + 1 / par.R) ^ N := one_lt_pow₀ h1 hN
  calc par.lamBlue = par.lamBlue * 1 := by ring
    _ < par.lamBlue * (1 + 1 / par.R) ^ N := by
        exact mul_lt_mul_of_pos_left h2 hB
    _ = preEdge par N := rfl

theorem edgeAt_mono (par : GridParams) (N : ℕ) (hB : 0 < par.lamBlue)
    (hR : 0 < par.R) (hBR : par.lamBlue < par.lamRed) (hN : N ≠ 0) (i : ℕ) :
    edgeAt par N i < edgeAt par N (i + 1) := by
  have hfac : 0 < (par.lamRed - par.lamBlue) / (preEdge par N - par.lamBlue) :=
    div_pos (by linarith) (by linarith [lamBlue_lt_preEdge par hB hR N hN])
  have hd : edgeAt par N (i + 1) - edgeAt par N i
      = (preEdge par (i + 1) - preEdge par i) *
        ((par.lamRed - par.lamBlue) / (preEdge par N - par.lamBlue)) := by
    unfold edgeAt
    ring
  have hp := mul_pos (sub_pos.mpr (preEdge_lt_succ par hB hR i)) hfac
  linarith [hd ▸ hp]

theorem edgeAt_zero (par : GridParams) (N : ℕ) :
    edgeAt par N 0 = par.lamBlue := by
  simp [edgeAt, preEdge_zero]

theorem edgeAt_last (par : GridParams) (N : ℕ) (hB : 0 < par.lamBlue)
    (hR : 0 < par.R) (hN : N ≠ 0) : edgeAt par N N = par.lamRed := by
  have hne : preEdge par N - par.lamBlue ≠ 0 :=
    ne_of_gt (by linarith [lamBlue_lt_preEdge par hB hR N hN])
  unfold edgeAt
  field_simp

theorem waveEndpoints_chain (par : GridParams) (N : ℕ) (hB : 0 < par.lamBlue)
    (hR : 0 < par.R) (hBR : par.lamBlue < par.lamRed) (hN : N ≠ 0) :
    List.Chain' (· < ·) (waveEndpoints par N) := by
  unfold waveEndpoints
  rw [List.chain'_map]
  rw [List.chain'_range_succ]
  intro m _
  exact edgeAt_mono par N hB hR hBR hN m

theorem waveMidpoints_chain (par : GridParams) (N : ℕ) (hB : 0 < par.lamBlue)
    (hR : 0 < par.R) (hBR : par.lamBlue < par.lamRed) (hN : N ≠ 0) :
    List.Chain' (· < ·) (waveMidpoints par N) := by
  unfold waveMidpoints
  rw [List.chain'_map]
  obtain ⟨M, rfl⟩ : ∃ M, N = M + 1 := ⟨N - 1, by omega⟩
  rw [List.chain'_range_succ]
  intro m _
  have h1 := edgeAt_mono par (M + 1) hB hR hBR hN m
  have h2 := edgeAt_mono par (M + 1) hB hR hBR hN (m + 1)
  linarith

/-! ## Optimal extractor (`crispy.tools.reduction` / `crispy.unitTests.testOptExt`) -/

/-- Modelled from the spec: an extracted or pixel value; `nan` and `inf`
model the IEEE special values §4.5 uses as explicit no-data markers. -/
inductive FVal where
  | fin (q : ℚ)
  | nan
  | inf
deriving DecidableEq, Repr

/-- Whether a value is an ordinary (finite) number. -/
def FVal.isFinite : FVal → Bool
  | .fin _ => true
  | _ => false

/-- Rational content of a finite value (junk `0` on the markers, which the
extractor never reads thanks to masking). -/
def FVal.toRat : FVal → ℚ
  | .fin q => q
  | _ => 0

/-- One detector pixel of a cutout bin: data value, unit-normalized profile
weight, and variance-map entry. -/
structure Pix where
  data : FVal
  prof : ℚ
  var : ℚ
deriving DecidableEq, Repr

/-- Modelled from the spec: the §4.5 mask — a pixel is dropped when its data
is non-finite or its variance is non-positive. -/
def pixMasked (px : Pix) : Bool :=
  !px.data.isFinite || decide (px.var ≤ 0)

/-- Denominator sum `Σ wᵢ·pᵢ²` with `wᵢ = 1/varianceᵢ`. -/
def binDen (pixels : List Pix) : ℚ :=
  (pixels.map (fun px => px.prof ^ 2 / px.var)).sum

/-- Numerator sum `Σ wᵢ·dᵢ·pᵢ` with `wᵢ = 1/varianceᵢ`. -/
def binNum (pixels : List Pix) : ℚ :=
  (pixels.map (fun px => px.data.toRat * px.prof / px.var)).sum

/-- Modelled from the spec: the §4.5 Horne-style weighted sums for one
wavelength bin — masked pixels are excluded from both sums, an all-masked bin
yields the `(nan, inf)` no-data marker, and otherwise the bin yields
`flux = Σ(wᵢdᵢpᵢ)/Σ(wᵢpᵢ²)` and `variance = 1/Σ(wᵢpᵢ²)`. -/
def extractBin (pixels : List Pix) : FVal × FVal :=
  let good := pixels.filter (fun px => !pixMasked px)
  if good.isEmpty then (FVal.nan, FVal.inf)
  else (FVal.fin (binNum good / binDen good), FVal.fin (1 / binDen good))

/-- Pointwise zip of one bin's data, profile and variance lists. -/
def zip3Pix : List FVal → List ℚ → List ℚ → List Pix
  | d :: ds, p :: ps, v :: vs => ⟨d, p, v⟩ :: zip3Pix ds ps vs
  | _, _, _ => []

/-- Per-wavelength-bin zip of the cutout data, the profile model and the
variance map. -/
def zip3Bins : List (List FVal) → List (List ℚ) → List (List ℚ) →
    List (List Pix)
  | d :: ds, p :: ps, v :: vs => zip3Pix d p v :: zip3Bins ds ps vs
  | _, _, _ => []

/-- Modelled from the spec: `optimalExtract` (§4.5), absent from `src/` —
the per-bin Horne extraction applied to every wavelength bin, in the
cutout's WavelengthSample order. -/
def optimalExtract (data : List (List FVal)) (prof varm : List (List ℚ)) :
    List (FVal × FVal) :=
  (zip3Bins data prof varm).map extractBin

theorem extractBin_unmasked (pixels : List Pix) (hne : pixels ≠ [])
    (hmask : ∀ px ∈ pixels, pixMasked px = false) :
    extractBin pixels
      = (FVal.fin (binNum pixels / binDen pixels),
         FVal.fin (1 / binDen pixels)) := by
  have hf : pixels.filter (fun px => !pixMasked px) = pixels :=
    List.filter_eq_self.mpr (fun px hpx => by rw [hmask px hpx]; rfl)
  unfold extractBin
  rw [hf, if_neg]
  simp [List.isEmpty_iff, hne]

theorem extractBin_filter (pixels : List Pix) :
    extractBin pixels
      = extractBin (pixels.filter (fun px => !pixMasked px)) := by
  unfold extractBin
  rw [List.filter_filter]
  simp

theorem extractBin_allMasked (pixels : List Pix)
    (hmask : ∀ px ∈ pixels, pixMasked px = true) :
    extractBin pixels = (FVal.nan, FVal.inf) := by
  have hf : pixels.filter (fun px => !pixMasked px) = [] := by
    rw [List.filter_eq_nil_iff]
    intro px hpx
    simp [hmask px hpx]
  unfold extractBin
  rw [hf]
  rfl

theorem optimalExtract_length (data : List (List FVal))
    (prof varm : List (List ℚ)) :
    (optimalExtract data prof varm).length = (zip3Bins data prof varm).length := by
  simp [optimalExtract]

theorem optimalExtract_getD (data : List (List FVal)) (prof varm : List (List ℚ))
    (i : ℕ) (hi : i < (zip3Bins data prof varm).length) :
    (optimalExtract data prof varm).getD i (FVal.nan, FVal.nan)
      = extractBin ((zip3Bins data prof varm).getD i []) := by
  rw [List.getD_eq_getElem _ _ (by simpa [optimalExtract] using hi),
    List.getD_eq_getElem _ _ hi]
  simp [optimalExtract]

/-! ## Cutout extractor (`crispy.unitTests.testCutout` / §4.4) -/

/-- Integer bounding box with half-open extents `[x0, x1) × [y0, y1)`. -/
structure BBox where
  x0 : ℤ
  x1 : ℤ
  y0 : ℤ
  y1 : ℤ
deriving DecidableEq, Repr

/-- Union bounding box of a list of boxes (degenerate zero box when the list
is empty). -/
def unionBBox : List BBox → BBox
  | [] => ⟨0, 0, 0, 0⟩
  | f :: fs =>
      fs.foldl
        (fun a b => ⟨min a.x0 b.x0, max a.x1 b.x1, min a.y0 b.y0, max a.y1 b.y1⟩) f

/-- Box expanded by `m` pixels on every side (PSF-wings margin, §4.4). -/
def expandBBox (m : ℤ) (b : BBox) : BBox :=
  ⟨b.x0 - m, b.x1 + m, b.y0 - m, b.y1 + m⟩

/-- Box clipped to detector bounds `[0, nx) × [0, ny)`. -/
def clipBBox (nx ny : ℤ) (b : BBox) : BBox :=
  ⟨max b.x0 0, min b.x1 nx, max b.y0 0, min b.y1 ny⟩

/-- Modelled from the spec: a Cutout is a non-owning view — the borrowed
source detector image together with its 4 integer bounds (§3). -/
structure Cutout where
  src : List (List ℚ)
  bounds : BBox
deriving DecidableEq, Repr

/-- Materialized (row × col) slice that the cutout view denotes. -/
def Cutout.data (c : Cutout) : List (List ℚ) :=
  ((c.src.drop c.bounds.y0.toNat).take (c.bounds.y1 - c.bounds.y0).toNat).map
    (fun row =>
      (row.drop c.bounds.x0.toNat).take (c.bounds.x1 - c.bounds.x0).toNat)

/-- Error taxonomy of the cutout extractor (§7): the clipped box is empty. -/
inductive CutoutErr where
  | boundsError
deriving DecidableEq, Repr

/-- Clipped footprints recorded for one lenslet in the pixel solution
(`none` entries are the null-footprint markers of §4.3 and are skipped). -/
def lensletFootprints (psol : List (List (Option BBox))) (lenslet : ℕ) :
    List BBox :=
  (psol.getD lenslet []).filterMap id

/-- Union bounding box of the lenslet's clipped footprints, expanded by
`margin` and clipped to the image bounds — the box §4.4 prescribes for the
cutout. -/
def cutoutBox (img : List (List ℚ)) (psol : List (List (Option BBox)))
    (lenslet : ℕ) (margin : ℤ) : BBox :=
  clipBBox ((img.headD []).length : ℤ) (img.length : ℤ)
    (expandBBox margin (unionBBox (lensletFootprints psol lenslet)))

/-- Modelled from the spec: `extractCutout` (§4.4), absent from `src/` —
the union bounding box of the lenslet's clipped footprints, expanded by
`margin`, clipped to the image, returned as a borrowed view; an empty
footprint list or a clipped box of zero width or height models
`BoundsError`. -/
def extractCutout (img : List (List ℚ)) (psol : List (List (Option BBox)))
    (lenslet : ℕ) (margin : ℤ) : Except CutoutErr Cutout :=
  if (lensletFootprints psol lenslet).isEmpty then .error .boundsError
  else if (cutoutBox img psol lenslet margin).x1 ≤ (cutoutBox img psol lenslet margin).x0
      ∨ (cutoutBox img psol lenslet margin).y1 ≤ (cutoutBox img psol lenslet margin).y0 then
    .error .boundsError
  else .ok ⟨img, cutoutBox img psol lenslet margin⟩

theorem extractCutout_error_iff (img : List (List ℚ))
    (psol : List (List (Option BBox))) (lenslet : ℕ) (margin : ℤ)
    (hne : lensletFootprints psol lenslet ≠ []) :
    extractCutout img psol lenslet margin = .error .boundsError
      ↔ ((cutoutBox img psol lenslet margin).x1
          ≤ (cutoutBox img psol lenslet margin).x0
        ∨ (cutoutBox img psol lenslet margin).y1
          ≤ (cutoutBox img psol lenslet margin).y0) := by
  unfold extractCutout
  rw [if_neg (by simp [List.isEmpty_iff, hne])]
  split
  case isTrue h => simpa using h
  case isFalse h => simp [h]

theorem extractCutout_ok_bounds (img : List (List ℚ))
    (psol : List (List (Option BBox))) (lenslet : ℕ) (margin : ℤ)
    (c : Cutout) (hok : extractCutout img psol lenslet margin = .ok c) :
    c.bounds = cutoutBox img psol lenslet margin ∧ c.src = img := by
  unfold extractCutout at hok
  split at hok
  case isTrue h => cases hok
  case isFalse h =>
    split at hok
    case isTrue h2 => cases hok
    case isFalse h2 =>
      injection hok with h3
      subst h3
      exact ⟨rfl, rfl⟩

theorem extractCutout_total (img : List (List ℚ))
    (psol : List (List (Option BBox))) (lenslet : ℕ) (margin : ℤ) :
    (∃ c, extractCutout img psol lenslet margin = .ok c)
      ∨ extractCutout img psol lenslet margin = .error .boundsError := by
  unfold extractCutout
  split
  case isTrue h => exact Or.inr rfl
  case isFalse h =>
    split
    case isTrue h2 => exact Or.inr rfl
    case isFalse h2 => exact Or.inl ⟨_, rfl⟩

theorem Cutout.data_getD (c : Cutout) (r col : ℕ)
    (hr1 : r < (c.bounds.y1 - c.bounds.y0).toNat)
    (hr2 : c.bounds.y0.toNat + r < c.src.length)
    (hc1 : col < (c.bounds.x1 - c.bounds.x0).toNat)
    (hc2 : c.bounds.x0.toNat + col
      < (c.src.getD (c.bounds.y0.toNat + r) []).length) :
    (c.data.getD r []).getD col 0
      = (c.src.getD (c.bounds.y0.toNat + r) []).getD
          (c.bounds.x0.toNat + col) 0 := by
  have hrowlen : r < ((c.src.drop c.bounds.y0.toNat).take
      (c.bounds.y1 - c.bounds.y0).toNat).length := by
    simp [List.length_take, List.length_drop]
    omega
  have hdata : r < c.data.length := by
    simpa [Cutout.data] using hrowlen
  rw [List.getD_eq_getElem _ _ hdata, List.getD_eq_getElem _ _ hr2]
  have hrow : c.data[r]
      = ((c.src[c.bounds.y0.toNat + r]).drop c.bounds.x0.toNat).take
          (c.bounds.x1 - c.bounds.x0).toNat := by
    simp [Cutout.data]
  rw [hrow]
  have hcg : c.bounds.x0.toNat + col
      < (c.src[c.bounds.y0.toNat + r]).length := by
    rwa [List.getD_eq_getElem _ _ hr2] at hc2
  have hcollen : col < (((c.src[c.bounds.y0.toNat + r]).drop
      c.bounds.x0.toNat).take (c.bounds.x1 - c.bounds.x0).toNat).length := by
    simp [List.length_take, List.length_drop]
    omega
  rw [List.getD_eq_getElem _ _ hcollen, List.getD_eq_getElem _ _ hcg]
  simp

/-! ## Pixel solution rasterizer (`PSFLets.genpixsol` / `PSFLets.savepixsol`) -/

/-- Modelled from the spec: the instrument-configuration inputs §6 names for
the rasterizer — lenslet lattice size, lenslet pitch, pixel size and detector
dimensions — plus a fixed footprint half-width (the footprint extent is not
specified further and `locate_psflets` is absent from `src/`). -/
structure IFSParams where
  nlens : ℕ
  pitch : ℚ
  pixsize : ℚ
  npixx : ℤ
  npixy : ℤ
  halfwidth : ℤ
deriving DecidableEq, Repr

/-- Modelled from the spec: detector-pixel centroid of one lenslet's PSF-let —
the evaluated geometric offsets plus the pitch-scaled lattice position, in
units of the pixel size (§4.3; the exact coefficient-to-pixel map of
`locate_psflets` is absent from `src/`). -/
def lensletCentroid (par : IFSParams) (i j : ℕ) (coeffs : List ℚ) : ℚ × ℚ :=
  ((coeffs.getD 0 0 + par.pitch * (i : ℚ)) / par.pixsize,
   (coeffs.getD 1 0 + par.pitch * (j : ℚ)) / par.pixsize)

/-- Null-footprint marker for a box that collapses to zero area (§4.3). -/
def nullIfEmpty (b : BBox) : Option BBox :=
  if b.x1 ≤ b.x0 ∨ b.y1 ≤ b.y0 then none else some b

/-- Modelled from the spec: clipped integer footprint around a centroid;
`none` marks a footprint that collapses to zero area after clipping (§4.3). -/
def footprintAt (par : IFSParams) (cx cy : ℚ) : Option BBox :=
  nullIfEmpty (clipBBox par.npixx par.npixy
    ⟨⌊cx⌋ - par.halfwidth, ⌊cx⌋ + par.halfwidth + 1,
     ⌊cy⌋ - par.halfwidth, ⌊cy⌋ + par.halfwidth + 1⟩)

/-- Modelled from the spec: `PSFLets.genpixsol` (§4.3), absent from `src/` —
iterate every lenslet lattice index and every wavelength of the grid,
evaluate the geometric model there, convert to detector-pixel coordinates,
and record the clipped footprint (or the null marker), in fixed
lenslet-enumeration and wavelength order. -/
def genpixsol (par : IFSParams) (arr : List (List ℚ)) (grid : List ℚ) :
    List (List (Option BBox)) :=
  (List.range (par.nlens * par.nlens)).map (fun L =>
    grid.map (fun lam =>
      footprintAt par
        (lensletCentroid par (L % par.nlens) (L / par.nlens) (evaluate arr lam)).1
        (lensletCentroid par (L % par.nlens) (L / par.nlens) (evaluate arr lam)).2))

/-- Modelled from the spec: `PSFLets.savepixsol(outdir)` (§4.3/§6), absent
from `src/` — persist the pixel-solution table as the single artifact
`PSFloc.fits` inside the output directory (filename taken from the
repository test `test_gen_pixel_solution`).  The filesystem is modelled as an
association list from path to persisted table. -/
def savepixsol (outdir : String) (psol : List (List (Option BBox)))
    (fs : List (String × List (List (Option BBox)))) :
    List (String × List (List (Option BBox))) :=
  (outdir ++ "/PSFloc.fits", psol) :: fs

/-! ## Concrete scenario data -/

/-- Cutout data of the 5×5 scenario of §8: one bin, every pixel 25. -/
def data25 : List (List FVal) := [List.replicate 25 (FVal.fin 25)]

/-- Flat unit-normalized profile weights 1/25 of the 5×5 scenario. -/
def prof25 : List (List ℚ) := [List.replicate 25 (1 / 25)]

/-- Unit variance map of the 5×5 scenario. -/
def varm25 : List (List ℚ) := [List.replicate 25 1]

theorem zip3Pix_replicate (n : ℕ) (d : FVal) (p v : ℚ) :
    zip3Pix (List.replicate n d) (List.replicate n p) (List.replicate n v)
      = List.replicate n ⟨d, p, v⟩ := by
  induction n with
  | zero => rfl
  | succ n ih => simp [List.replicate_succ, zip3Pix, ih]

/-- Calibration wavelengths of the §8 order-2 scenario. -/
def lamlist7 : List ℚ := [700, 770, 850]

/-- Coefficient vectors of the §8 order-2 scenario. -/
def allcoef7 : List (List ℚ) := [[1, 0], [1, 1 / 10], [1, 1 / 5]]

/-- InterpolationArray fitted through the §8 order-2 scenario. -/
def arr7 : List (List ℚ) := (geninterparray 2 lamlist7 allcoef7).getD []

/-! ## Claims -/

/-- C1 counterexample: on the stated 5×5 scenario (flat profile weights 1/25,
data uniformly 25, variance 1 everywhere) the optimal extractor returns flux
625, not the claimed 25 (the variance is 25 as claimed). -/
theorem claim_C1_counterexample :
    optimalExtract data25 prof25 varm25 = [(FVal.fin 625, FVal.fin 25)]
      ∧ FVal.fin (625 : ℚ) ≠ FVal.fin (25 : ℚ) := by
  refine ⟨?_, by norm_num⟩
  norm_num [data25, prof25, varm25, optimalExtract, zip3Bins, zip3Pix,
    extractBin, pixMasked, FVal.isFinite, binNum, binDen, FVal.toRat,
    List.replicate, List.filter]

/-- C1 (amended): for every cutout, profile model and variance map,
`optimalExtract` computes, per WavelengthSample bin containing no masked
pixel, `flux = Σ(wᵢ·dᵢ·pᵢ) / Σ(wᵢ·pᵢ²)` and `variance = 1 / Σ(wᵢ·pᵢ²)` with
`wᵢ = 1/varianceMapᵢ`; in particular, on a 5×5 cutout with flat profile
weights 1/25, data uniformly 25, and variance 1 everywhere, the returned
flux is 625 and the returned variance is 25. -/
theorem claim_C1 :
    (∀ pixels : List Pix, pixels ≠ [] →
      (∀ px ∈ pixels, pixMasked px = false) →
      extractBin pixels = (FVal.fin (binNum pixels / binDen pixels),
        FVal.fin (1 / binDen pixels)))
    ∧ (∀ (data : List (List FVal)) (prof varm : List (List ℚ)),
        optimalExtract data prof varm = (zip3Bins data prof varm).map extractBin)
    ∧ optimalExtract data25 prof25 varm25 = [(FVal.fin 625, FVal.fin 25)] := by
  refine ⟨extractBin_unmasked, fun _ _ _ => rfl, ?_⟩
  norm_num [data25, prof25, varm25, optimalExtract, zip3Bins, zip3Pix,
    extractBin, pixMasked, FVal.isFinite, binNum, binDen, FVal.toRat,
    List.replicate, List.filter]

/-- Witness for C1 at the concrete 5×5 bin. -/
theorem claim_C1_witness :
    extractBin (zip3Pix (List.replicate 25 (FVal.fin 25))
        (List.replicate 25 (1 / 25)) (List.replicate 25 1))
      = (FVal.fin
          (binNum (zip3Pix (List.replicate 25 (FVal.fin 25))
              (List.replicate 25 (1 / 25)) (List.replicate 25 1))
            / binDen (zip3Pix (List.replicate 25 (FVal.fin 25))
              (List.replicate 25 (1 / 25)) (List.replicate 25 1))),
         FVal.fin
          (1 / binDen (zip3Pix (List.replicate 25 (FVal.fin 25))
              (List.replicate 25 (1 / 25)) (List.replicate 25 1)))) :=
  claim_C1.1 _
    (by rw [zip3Pix_replicate]; simp)
    (by
      rw [zip3Pix_replicate]
      intro px hpx
      rw [List.eq_of_mem_replicate hpx]
      norm_num [pixMasked, FVal.isFinite])

/-- C2: for every detector image and pixel solution, `extractCutout` on a
lenslet with a nonempty footprint list fails with `BoundsError` exactly when
the margin-expanded union box clipped to the image has zero width or height;
on success the returned bounds equal exactly the union bounding box of the
lenslet's clipped footprints expanded by the margin and clipped to the
image; and the only possible outcomes are success or `BoundsError`. -/
theorem claim_C2 (img : List (List ℚ)) (psol : List (List (Option BBox)))
    (lenslet : ℕ) (margin : ℤ)
    (hne : lensletFootprints psol lenslet ≠ []) :
    (extractCutout img psol lenslet margin = .error .boundsError
      ↔ ((cutoutBox img psol lenslet margin).x1
          ≤ (cutoutBox img psol lenslet margin).x0
        ∨ (cutoutBox img psol lenslet margin).y1
          ≤ (cutoutBox img psol lenslet margin).y0))
    ∧ (∀ c, extractCutout img psol lenslet margin = .ok c →
        c.bounds = clipBBox ((img.headD []).length : ℤ) (img.length : ℤ)
          (expandBBox margin (unionBBox (lensletFootprints psol lenslet))))
    ∧ ((∃ c, extractCutout img psol lenslet margin = .ok c)
      ∨ extractCutout img psol lenslet margin = .error .boundsError) :=
  ⟨extractCutout_error_iff img psol lenslet margin hne,
   fun c hc => (extractCutout_ok_bounds img psol lenslet margin c hc).1,
   extractCutout_total img psol lenslet margin⟩

/-- Witness for C2 on a concrete 10×10 image with one on-detector
footprint. -/
theorem claim_C2_witness :
    extractCutout (List.replicate 10 (List.replicate 10 (0 : ℚ)))
        [[some ⟨2, 5, 3, 6⟩]] 0 1 = .error .boundsError
      ↔ ((cutoutBox (List.replicate 10 (List.replicate 10 (0 : ℚ)))
            [[some ⟨2, 5, 3, 6⟩]] 0 1).x1
          ≤ (cutoutBox (List.replicate 10 (List.replicate 10 (0 : ℚ)))
            [[some ⟨2, 5, 3, 6⟩]] 0 1).x0
        ∨ (cutoutBox (List.replicate 10 (List.replicate 10 (0 : ℚ)))
            [[some ⟨2, 5, 3, 6⟩]] 0 1).y1
          ≤ (cutoutBox (List.replicate 10 (List.replicate 10 (0 : ℚ)))
            [[some ⟨2, 5, 3, 6⟩]] 0 1).y0) :=
  (claim_C2 (List.replicate 10 (List.replicate 10 (0 : ℚ)))
    [[some ⟨2, 5, 3, 6⟩]] 0 1 (by simp [lensletFootprints])).1

/-- C3: for every resolving power `R > 0`, channel count `N > 0` and valid
bandpass `0 < blue < red`, the wavelength grid builder returns exactly `N`
strictly ascending midpoints and `N + 1` strictly ascending edges whose
un-rescaled edges satisfy `edge[i+1]/edge[i] = 1 + 1/R`, and after the
uniform rescale the first edge equals the configured blue limit and the last
edge equals the configured red limit exactly. -/
theorem claim_C3 (par : GridParams) (N : ℕ) (hR : 0 < par.R) (hN : N ≠ 0)
    (hB : 0 < par.lamBlue) (hBR : par.lamBlue < par.lamRed) :
    calculateWaveList par N = some (waveMidpoints par N, waveEndpoints par N)
    ∧ (waveMidpoints par N).length = N
    ∧ (waveEndpoints par N).length = N + 1
    ∧ List.Chain' (· < ·) (waveMidpoints par N)
    ∧ List.Chain' (· < ·) (waveEndpoints par N)
    ∧ (waveEndpoints par N).getD 0 0 = par.lamBlue
    ∧ (waveEndpoints par N).getD N 0 = par.lamRed
    ∧ ∀ i, preEdge par (i + 1) / preEdge par i = 1 + 1 / par.R := by
  have hchain := waveEndpoints_chain par N hB hR hBR hN
  refine ⟨?_, ?_, ?_, waveMidpoints_chain par N hB hR hBR hN, hchain, ?_, ?_, ?_⟩
  · unfold calculateWaveList
    rw [if_neg (by push_neg; exact ⟨hR, hN⟩), if_pos hchain]
  · simp [waveMidpoints]
  · simp [waveEndpoints]
  · rw [List.getD_eq_getElem _ _ (by simp [waveEndpoints])]
    simp [waveEndpoints, edgeAt_zero]
  · rw [List.getD_eq_getElem _ _ (by simp [waveEndpoints])]
    simp only [waveEndpoints, List.getElem_map, List.getElem_range]
    exact edgeAt_last par N hB hR hN
  · intro i
    rw [preEdge_succ]
    exact mul_div_cancel_left₀ _ (ne_of_gt (preEdge_pos par hB hR i))

/-- Witness for C3 at `R = 50`, `N = 3`, bandpass 600–970 nm. -/
theorem claim_C3_witness :
    calculateWaveList ⟨50, 600, 970⟩ 3
        = some (waveMidpoints ⟨50, 600, 970⟩ 3, waveEndpoints ⟨50, 600, 970⟩ 3)
      ∧ (waveEndpoints ⟨50, 600, 970⟩ 3).getD 0 0 = 600 :=
  ⟨(claim_C3 ⟨50, 600, 970⟩ 3 (by norm_num) (by norm_num) (by norm_num)
      (by norm_num)).1,
   (claim_C3 ⟨50, 600, 970⟩ 3 (by norm_num) (by norm_num) (by norm_num)
      (by norm_num)).2.2.2.2.2.1⟩

/-- C4: for every calibration table with strictly increasing wavelengths and
`order + 1` equal to the number of calibration points, `buildInterpolation`
succeeds and `evaluate` at each calibration wavelength returns exactly that
wavelength's coefficient vector (the fit is exact at the nodes, hence within
any relative tolerance such as 1e-9). -/
theorem claim_C4 (order : ℕ) (lamlist : List ℚ) (allcoef : List (List ℚ))
    (nc : ℕ) (hchain : List.Chain' (· < ·) lamlist)
    (hlam : lamlist.length = order + 1)
    (hacl : allcoef.length = lamlist.length)
    (hrows : ∀ row ∈ allcoef, row.length = nc)
    (i : ℕ) (hi : i < lamlist.length) :
    (geninterparray order lamlist allcoef).map
        (fun arr => evaluate arr lamlist[i]) = some allcoef[i] := by
  have hg : geninterparray order lamlist allcoef
      = some ((List.range (allcoef.headD []).length).map (fun c =>
          fitColumn order lamlist (allcoef.map (fun row => row.getD c 0)))) := by
    unfold geninterparray
    rw [if_pos ⟨le_of_eq hlam.symm, hchain, hacl.symm⟩]
  rw [hg, Option.map_some']
  exact congrArg some
    (geninterparray_eval_node order lamlist allcoef nc _ hchain hlam hacl
      hrows hg i hi)

/-- Witness for C4 on the line through `(1, 3)` and `(2, 5)`. -/
theorem claim_C4_witness :
    (geninterparray 1 [1, 2] [[3], [5]]).map (fun arr => evaluate arr 1)
      = some [3] :=
  claim_C4 1 [1, 2] [[3], [5]] 1 (by norm_num [List.chain'_cons]) rfl rfl
    (by simp) 0 (by norm_num)

/-- C5: `genpixsol` is a deterministic function of its inputs — two runs on
identical geometric model and wavelength grid produce identical
PixelSolution tables. -/
theorem claim_C5 (par par' : IFSParams) (arr arr' : List (List ℚ))
    (grid grid' : List ℚ) (hp : par = par') (ha : arr = arr')
    (hg : grid = grid') :
    genpixsol par arr grid = genpixsol par' arr' grid' := by
  subst hp
  subst ha
  subst hg
  rfl

/-- Witness for C5 on a concrete 2×2 lattice model. -/
theorem claim_C5_witness :
    genpixsol ⟨2, 1, 1, 10, 10, 1⟩ [[1], [2]] [700, 800]
      = genpixsol ⟨2, 1, 1, 10, 10, 1⟩ [[1], [2]] [700, 800] :=
  claim_C5 ⟨2, 1, 1, 10, 10, 1⟩ ⟨2, 1, 1, 10, 10, 1⟩ [[1], [2]] [[1], [2]]
    [700, 800] [700, 800] rfl rfl rfl

/-- C6: pixels with non-finite data or non-positive variance are excluded
from both sums of `optimalExtract` (the bin result only depends on the
unmasked pixels), and a bin whose pixels are all masked — for example
variance 0 everywhere — yields `flux = NaN` and `variance = +∞`, with no
exception raised (the extractor is a total function). -/
theorem claim_C6 :
    (∀ pixels : List Pix,
      extractBin pixels
        = extractBin (pixels.filter (fun px => !pixMasked px)))
    ∧ (∀ pixels : List Pix, (∀ px ∈ pixels, pixMasked px = true) →
        extractBin pixels = (FVal.nan, FVal.inf)) :=
  ⟨extractBin_filter, extractBin_allMasked⟩

/-- Witness for C6 on a concrete bin with variance 0 everywhere. -/
theorem claim_C6_witness :
    extractBin (zip3Pix [FVal.fin 1, FVal.fin 2] [1 / 2, 1 / 2] [0, 0])
      = (FVal.nan, FVal.inf) :=
  claim_C6.2 _ (by
    intro px hpx
    simp [zip3Pix] at hpx
    rcases hpx with h | h <;> subst h <;> norm_num [pixMasked, FVal.isFinite])

/-- C7 counterexample: for the order-2 model through 700/770/850 nm with
coefficient vectors `[1, 0]`, `[1, 0.1]`, `[1, 0.2]`, the first component of
`evaluate(735)` equals 1 exactly, so it is not strictly between the first
components (both 1.0) of the claimed bounding vectors. -/
theorem claim_C7_counterexample :
    (evaluate arr7 735).getD 0 0 = 1
    ∧ ¬((1 : ℚ) < (evaluate arr7 735).getD 0 0
        ∧ (evaluate arr7 735).getD 0 0 < 1) := by
  have h : (evaluate arr7 735).getD 0 0 = 1 := by
    norm_num [arr7, geninterparray, lamlist7, allcoef7, fitColumn, lagrange,
      lagrangeGo, prodFac, mulLinear, polyAdd, polyScale, evaluate, polyEval,
      List.range_succ]
  refine ⟨h, ?_⟩
  rw [h]
  norm_num

/-- C7 (amended): for the order-2 model fit through calibration wavelengths
700, 770, 850 nm with coefficient vectors `[1, 0]`, `[1, 0.1]`, `[1, 0.2]`,
`evaluate(770)` returns `[1, 0.1]` exactly, and `evaluate(735)` has first
component exactly 1 and second component strictly between 0 and 0.1. -/
theorem claim_C7 :
    evaluate arr7 770 = [1, 1 / 10]
    ∧ (evaluate arr7 735).getD 0 0 = 1
    ∧ (0 : ℚ) < (evaluate arr7 735).getD 1 0
    ∧ (evaluate arr7 735).getD 1 0 < 1 / 10 := by
  norm_num [arr7, geninterparray, lamlist7, allcoef7, fitColumn, lagrange,
    lagrangeGo, prodFac, mulLinear, polyAdd, polyScale, evaluate, polyEval,
    List.range_succ]

/-- C8: after every successful `buildInterpolation`/`geninterparray` call on
a calibration table, the InterpolationArray has exactly one column per
geometric coefficient of the table and every column has exactly `order + 1`
rows; being a pure function of the calibration data, the same holds for
every rebuild. -/
theorem claim_C8 (order : ℕ) (lamlist : List ℚ) (allcoef : List (List ℚ))
    (arr : List (List ℚ)) (nc : ℕ)
    (hrows : ∀ row ∈ allcoef, row.length = nc) (hne : allcoef ≠ [])
    (hsome : geninterparray order lamlist allcoef = some arr) :
    arr.length = nc ∧ ∀ col ∈ arr, col.length = order + 1 :=
  geninterparray_shape order lamlist allcoef arr nc hrows hne hsome

/-- Witness for C8 on the line through `(1, 3)` and `(2, 5)`. -/
theorem claim_C8_witness :
    ([[(1 : ℚ), 2]] : List (List ℚ)).length = 1
      ∧ ([(1 : ℚ), 2] : List ℚ).length = 1 + 1 :=
  ⟨(claim_C8 1 [1, 2] [[3], [5]] [[1, 2]] 1 (by simp) (by simp)
      (by norm_num [geninterparray, fitColumn, lagrange, lagrangeGo, prodFac,
        mulLinear, polyAdd, polyScale, List.chain'_cons, List.range_succ])).1,
   (claim_C8 1 [1, 2] [[3], [5]] [[1, 2]] 1 (by simp) (by simp)
      (by norm_num [geninterparray, fitColumn, lagrange, lagrangeGo, prodFac,
        mulLinear, polyAdd, polyScale, List.chain'_cons, List.range_succ])).2
     [1, 2] (by simp)⟩

/-- C9: the cutout returned by `extractCutout` carries the source image
unchanged; the cutout is a view — each element of its materialized data is
read from the source image at the bounds offset; and `optimalExtract`
produces one output per wavelength bin, in the cutout's WavelengthSample
order (it is a pure function, so no input is mutated). -/
theorem claim_C9 :
    (∀ (img : List (List ℚ)) (psol : List (List (Option BBox)))
        (lenslet : ℕ) (margin : ℤ) (c : Cutout),
        extractCutout img psol lenslet margin = .ok c → c.src = img)
    ∧ (∀ (c : Cutout) (r col : ℕ),
        r < (c.bounds.y1 - c.bounds.y0).toNat →
        c.bounds.y0.toNat + r < c.src.length →
        col < (c.bounds.x1 - c.bounds.x0).toNat →
        c.bounds.x0.toNat + col
            < (c.src.getD (c.bounds.y0.toNat + r) []).length →
        (c.data.getD r []).getD col 0
          = (c.src.getD (c.bounds.y0.toNat + r) []).getD
              (c.bounds.x0.toNat + col) 0)
    ∧ (∀ (data : List (List FVal)) (prof varm : List (List ℚ)),
        (optimalExtract data prof varm).length
          = (zip3Bins data prof varm).length)
    ∧ (∀ (data : List (List FVal)) (prof varm : List (List ℚ)) (i : ℕ),
        i < (zip3Bins data prof varm).length →
        (optimalExtract data prof varm).getD i (FVal.nan, FVal.nan)
          = extractBin ((zip3Bins data prof varm).getD i [])) :=
  ⟨fun img psol lenslet margin c h =>
      (extractCutout_ok_bounds img psol lenslet margin c h).2,
   Cutout.data_getD, optimalExtract_length, optimalExtract_getD⟩

/-- Witness for C9: the view property evaluated on a concrete 2×2 cutout. -/
theorem claim_C9_witness :
    ((Cutout.mk [[1, 2], [3, 4]] ⟨0, 2, 0, 2⟩).data.getD 1 []).getD 0 0
      = ((Cutout.mk [[1, 2], [3, 4]] ⟨0, 2, 0, 2⟩).src.getD
            ((Cutout.mk [[1, 2], [3, 4]] ⟨0, 2, 0, 2⟩).bounds.y0.toNat + 1)
            []).getD
          ((Cutout.mk [[1, 2], [3, 4]] ⟨0, 2, 0, 2⟩).bounds.x0.toNat + 0) 0 :=
  claim_C9.2.1 (Cutout.mk [[1, 2], [3, 4]] ⟨0, 2, 0, 2⟩) 1 0
    (by decide) (by simp) (by decide) (by simp)

/-- C10: `savepixsol` persists the PixelSolution table as the single file
`PSFloc.fits` inside the output directory: after the call the path
`outdir ++ "/PSFloc.fits"` maps to the table, and the rest of the filesystem
is unchanged. -/
theorem claim_C10 (outdir : String) (psol : List (List (Option BBox)))
    (fs : List (String × List (List (Option BBox)))) :
    (savepixsol outdir psol fs).lookup (outdir ++ "/PSFloc.fits") = some psol
    ∧ savepixsol outdir psol fs = (outdir ++ "/PSFloc.fits", psol) :: fs :=
  ⟨by simp [savepixsol], rfl⟩

end Crispy
